import Mathlib

/-!
Shallow embedding of `scipy/stats/contingency.py` (the contingency-table
core: `margins`, `expected_freq`, `chi2_contingency`, `association`).

An n-dimensional numpy array is modelled by `Arr n`: a shape function
`Fin n → ℕ` together with a data function on unrestricted integer
multi-indices `Fin n → ℕ`.  Only the values at indices that are pointwise
below the shape are meaningful; numpy broadcasting of length-1 axes is
automatic because a summed-out axis produces a data function that no longer
reads that coordinate.  Cell values are exact rationals `ℚ` standing for the
float64 values the code computes with (the claims under study are about
exact outcomes; the spec states tolerances only for C6, which we settle in
exact arithmetic as its text invites).

The external `power_divergence` routine (imported from `scipy.stats.stats`,
outside the verified core per the spec's §1) is an opaque parameter `pd`.
-/

namespace Contingency

structure Arr (n : ℕ) where
  shape : Fin n → ℕ
  data : (Fin n → ℕ) → ℚ

variable {n : ℕ}

instance : Inhabited (Arr n) := ⟨⟨fun _ => 0, fun _ => 0⟩⟩

/-- The finset of valid (in-range) multi-indices of an array. -/
def Arr.validIdx (A : Arr n) : Finset (Fin n → ℕ) :=
  Fintype.piFinset fun k => Finset.range (A.shape k)

/-- numpy `a.size`: the number of elements, the product of the shape. -/
def Arr.size (A : Arr n) : ℕ := ∏ k, A.shape k

/-- All valid multi-indices in C order (row-major, first axis slowest):
the order in which numpy iterates elements and in which `np.nonzero`
reports positions. -/
def indicesCOrder : (n : ℕ) → (Fin n → ℕ) → List (Fin n → ℕ)
  | 0, _ => [fun i => i.elim0]
  | n + 1, s =>
      (List.range (s 0)).flatMap fun i =>
        (indicesCOrder n fun k => s k.succ).map (Fin.cons i)

/-- numpy `a.sum()`: the sum of all cells (iterated in C order). -/
def Arr.sum (A : Arr n) : ℚ := ((indicesCOrder n A.shape).map A.data).sum

/-- Shape lookup by a plain natural position (callers guard the bound,
as `association` does via its rank check). -/
def Arr.shapeAt (A : Arr n) (i : ℕ) : ℕ :=
  if h : i < n then A.shape ⟨i, h⟩ else 0

/-- One step of `np.apply_over_axes(np.sum, ·, axes)`: sum the array over
axis `j`, keeping the axis with length 1. -/
def sumAxisKeep (A : Arr n) (j : Fin n) : Arr n :=
  ⟨Function.update A.shape j 1,
   fun idx => ∑ i ∈ Finset.range (A.shape j), A.data (Function.update idx j i)⟩

/-- The `margins` body for a single `k`:
`np.apply_over_axes(np.sum, a, [j for j in range(a.ndim) if j != k])`. -/
def marginAt (A : Arr n) (k : Fin n) : Arr n :=
  ((List.finRange n).filter (fun j => j ≠ k)).foldl sumAxisKeep A

/-- Model of `margins(a)`: the list of marginal sums, one per axis. -/
def margins (A : Arr n) : List (Arr n) := (List.finRange n).map (marginAt A)

/-- Elementwise `np.multiply` of two broadcast-compatible arrays.  A
length-1 axis defers to the other operand's length; the data functions
multiply pointwise (broadcasting is automatic in this model, because an
array with a length-1 axis never reads that coordinate). -/
def elemMul (a b : Arr n) : Arr n :=
  ⟨fun l => if a.shape l = 1 then b.shape l else a.shape l,
   fun idx => a.data idx * b.data idx⟩

/-- Model of `functools.reduce(np.multiply, margsums)`.  On an empty list the Python
original raises `TypeError`; that case (a 0-dimensional input) is outside
every claim and gets the default array. -/
def reduceMul : List (Arr n) → Arr n
  | [] => default
  | m :: rest => rest.foldl elemMul m

/-- Model of `expected_freq(observed)`:
`reduce(np.multiply, margins(observed)) / observed.sum() ** (d - 1)`. -/
def expected_freq (A : Arr n) : Arr n :=
  let E : Arr n := reduceMul (margins A)
  ⟨E.shape, fun idx => E.data idx / A.sum ^ (n - 1)⟩

/-- The error taxonomy of the spec (§7).  Each Python `ValueError` raised by
the source is mapped to the distinguishable kind the spec names; `mathDomain`
is the `ValueError` that `math.sqrt` raises on a negative argument. -/
inductive Err where
  | negativeValue
  | emptyInput
  | degenerateExpectedCell (pos : List ℕ)
  | wrongDtype
  | wrongRank
  | unknownMethod
  | mathDomain
deriving DecidableEq

/-- The quantity `dof = expected.size - sum(expected.shape) + expected.ndim - 1`,
computed in `ℤ` as Python's unbounded ints do. -/
def dofOfShape (shape : Fin n → ℕ) : ℤ :=
  (∏ k, (shape k : ℤ)) - (∑ k, (shape k : ℤ)) + n - 1

/-- Signature of the external `power_divergence(observed, expected,
ddof, axis=None, lambda_)` collaborator: it returns a (statistic, p-value)
pair.  `Λ` is the type of the divergence-family selector. -/
def PD (Λ : Type) (n : ℕ) := Arr n → Arr n → ℤ → Λ → ℚ × ℚ

/-- Model of `np.sign` on a (rational-valued) float. -/
def npSign (q : ℚ) : ℚ := if 0 < q then 1 else if q < 0 then -1 else 0

/-- The Yates continuity adjustment of `chi2_contingency` (lines 291-294):
`diff = expected - observed; direction = np.sign(diff);`
`magnitude = np.minimum(0.5, np.abs(diff)); observed + magnitude*direction`. -/
def yatesAdjusted (observed expected : Arr n) : Arr n :=
  ⟨observed.shape, fun idx =>
    let diff := expected.data idx - observed.data idx
    observed.data idx + min (1 / 2 : ℚ) |diff| * npSign diff⟩

/-- The observed table actually handed to `power_divergence`: adjusted by
Yates' correction exactly when `dof == 1 and correction`. -/
def adjustObserved (observed expected : Arr n) (dof : ℤ) (correction : Bool) : Arr n :=
  if dof = 1 ∧ correction = true then yatesAdjusted observed expected else observed

/-- Model of `chi2_contingency(observed, correction, lambda_)` with the external
`power_divergence` as the parameter `pd`. -/
def chi2_contingency {Λ : Type} (pd : PD Λ n) (observed : Arr n)
    (correction : Bool) (lam : Λ) : Except Err (ℚ × ℚ × ℤ × Arr n) :=
  if ∃ idx ∈ indicesCOrder n observed.shape, observed.data idx < 0 then
    .error .negativeValue
  else if observed.size = 0 then
    .error .emptyInput
  else
    let expected := expected_freq observed
    match (indicesCOrder n expected.shape).find?
        (fun idx => decide (expected.data idx = 0)) with
    | some pos => .error (.degenerateExpectedCell (List.ofFn pos))
    | none =>
      let dof := dofOfShape expected.shape
      if dof = 0 then
        .ok (0, 1, dof, expected)
      else
        let obs2 := adjustObserved observed expected dof correction
        let r := pd obs2 expected ((observed.size : ℤ) - 1 - dof) lam
        .ok (r.1, r.2, dof, expected)

/-- The exact value of a Python float appearing in `association`: a finite
real, NaN, or a signed infinity.  (No rounding is modelled; every number the
claims touch is exact in float64 too.) -/
inductive PyFloat where
  | fin (x : ℝ)
  | nan
  | inf
  | ninf

open Classical in
/-- Float division as numpy scalars perform it: division by zero warns and
yields NaN (0/0) or a signed infinity, never a `ZeroDivisionError`. -/
noncomputable def pyDiv : PyFloat → PyFloat → PyFloat
  | .fin a, .fin b =>
      if b = 0 then (if a = 0 then .nan else if 0 < a then .inf else .ninf)
      else .fin (a / b)
  | .nan, _ => .nan
  | _, .nan => .nan
  | .inf, .fin b => if 0 ≤ b then .inf else .ninf
  | .ninf, .fin b => if 0 ≤ b then .ninf else .inf
  | .fin _, .inf => .fin 0
  | .fin _, .ninf => .fin 0
  | .inf, .inf => .nan
  | .inf, .ninf => .nan
  | .ninf, .inf => .nan
  | .ninf, .ninf => .nan

open Classical in
/-- Float addition on exact float values. -/
noncomputable def pyAdd : PyFloat → PyFloat → PyFloat
  | .fin a, .fin b => .fin (a + b)
  | .nan, _ => .nan
  | _, .nan => .nan
  | .inf, .ninf => .nan
  | .ninf, .inf => .nan
  | .inf, _ => .inf
  | _, .inf => .inf
  | .ninf, _ => .ninf
  | _, .ninf => .ninf

open Classical in
/-- Model of `math.sqrt` on a float: raises `ValueError` (math domain error) on
negative inputs including -inf; maps NaN to NaN and +inf to +inf. -/
noncomputable def pySqrt : PyFloat → Except Err PyFloat
  | .fin x => if x < 0 then .error .mathDomain else .ok (.fin (Real.sqrt x))
  | .nan => .ok .nan
  | .inf => .ok .inf
  | .ninf => .error .mathDomain

open Classical in
/-- Model of `math.sqrt` applied to a Python integer, as in
`math.sqrt((n_rows - 1) * (n_cols - 1))`. -/
noncomputable def sqrtZ (x : ℤ) : Except Err ℝ :=
  if x < 0 then .error .mathDomain else .ok (Real.sqrt (x : ℝ))

/-- The `method` argument of `association`; `other` stands for any string
not among the three supported names. -/
inductive Method where
  | cramer
  | tschuprow
  | pearson
  | other

/-- Model of `association(observed, method, correction, lambda_)`.  Here `intDtype`
models `np.issubdtype(arr.dtype, np.integer)` for the input array. -/
noncomputable def association {Λ : Type} (pd : PD Λ n) (intDtype : Bool)
    (arr : Arr n) (method : Method) (correction : Bool) (lam : Λ) :
    Except Err PyFloat :=
  if !intDtype then .error .wrongDtype
  else if n ≠ 2 then .error .wrongRank
  else
    match chi2_contingency pd arr correction lam with
    | .error e => .error e
    | .ok r =>
      let phi2 := pyDiv (.fin (r.1 : ℝ)) (.fin (arr.sum : ℝ))
      let nRows := arr.shapeAt 0
      let nCols := arr.shapeAt 1
      match method with
      | .cramer =>
          pySqrt (pyDiv phi2 (.fin ((min ((nCols : ℤ) - 1) ((nRows : ℤ) - 1) : ℤ) : ℝ)))
      | .tschuprow =>
          match sqrtZ (((nRows : ℤ) - 1) * ((nCols : ℤ) - 1)) with
          | .error e => .error e
          | .ok s => pySqrt (pyDiv phi2 (.fin s))
      | .pearson => pySqrt (pyDiv phi2 (pyAdd (.fin 1) phi2))
      | .other => .error .unknownMethod

/-! ### Proof-side definitions (not part of the embedding) -/

/-- The sum of the table over all indices whose `k`-th coordinate is pinned
to `i`: the mathematical marginal, written directly as a fiber sum. -/
def marginSlice (A : Arr n) (k : Fin n) (i : ℕ) : ℚ :=
  ∑ p ∈ Fintype.piFinset
    (fun l => if l = k then ({i} : Finset ℕ) else Finset.range (A.shape l)),
    A.data p

/-- A trivial stand-in for the external divergence function, used to
instantiate universally quantified statements at concrete inputs. -/
def pdZero (n : ℕ) : PD Unit n := fun _ _ _ _ => (0, 0)

/-- Build the data function of a 1-D array from a list. -/
def data1 (xs : List ℚ) : (Fin 1 → ℕ) → ℚ := fun idx => xs.getD (idx 0) 0

/-- Build the data function of a 2-D array from a list of rows. -/
def data2 (rows : List (List ℚ)) : (Fin 2 → ℕ) → ℚ :=
  fun idx => (rows.getD (idx 0) []).getD (idx 1) 0

/-- Concrete tables used to instantiate the claims. -/
def arrOneZero : Arr 1 := ⟨![1], data1 [0]⟩

def arrTwoZero : Arr 1 := ⟨![2], data1 [1, 0]⟩

def arrOnePos : Arr 1 := ⟨![3], data1 [5, 7, 2]⟩

def arrNegEntry : Arr 2 := ⟨![2, 2], data2 [[-1, 2], [3, 4]]⟩

def arrZeroRow : Arr 2 := ⟨![2, 2], data2 [[1, 1], [0, 0]]⟩

def arrOneRow : Arr 2 := ⟨![1, 2], data2 [[5, 5]]⟩

def arrOneCol : Arr 2 := ⟨![2, 1], data2 [[3], [4]]⟩

def arrSquare : Arr 2 := ⟨![2, 2], data2 [[1, 2], [3, 4]]⟩

/-! ### Basic index lemmas -/

theorem mem_validIdx {A : Arr n} {p : Fin n → ℕ} :
    p ∈ A.validIdx ↔ ∀ k, p k < A.shape k := by
  simp [Arr.validIdx, Fintype.mem_piFinset]

theorem fin_cons_one {α : Type} (x : α) (t : Fin 1 → α) :
    (Fin.cons x t : Fin 2 → α) 1 = t 0 := rfl

theorem mem_indicesCOrder : ∀ {n : ℕ} {s p : Fin n → ℕ},
    p ∈ indicesCOrder n s ↔ ∀ k, p k < s k := by
  intro n
  induction n with
  | zero =>
    intro s p
    constructor
    · intro _ k
      exact k.elim0
    · intro _
      simp only [indicesCOrder, List.mem_singleton]
      funext k
      exact k.elim0
  | succ m ih =>
    intro s p
    simp only [indicesCOrder, List.mem_flatMap, List.mem_map, List.mem_range]
    constructor
    · rintro ⟨i, hi, t, ht, rfl⟩ k
      refine Fin.cases ?_ ?_ k
      · simpa using hi
      · intro j
        simpa using (ih.mp ht) j
    · intro hp
      exact ⟨p 0, hp 0, Fin.tail p, ih.mpr fun j => hp j.succ, Fin.cons_self_tail p⟩

theorem nodup_indicesCOrder : ∀ {n : ℕ} {s : Fin n → ℕ}, (indicesCOrder n s).Nodup := by
  intro n
  induction n with
  | zero =>
    intro s
    simp [indicesCOrder]
  | succ m ih =>
    intro s
    rw [indicesCOrder, List.nodup_flatMap]
    constructor
    · intro i _
      refine ih.map ?_
      intro a b hab
      funext j
      have hj := congrFun hab j.succ
      rwa [Fin.cons_succ, Fin.cons_succ] at hj
    · have hr : (List.range (s 0)).Pairwise (fun a b => a ≠ b) := List.nodup_range _
      refine hr.imp ?_
      intro i j hij a ha hb
      rw [List.mem_map] at ha hb
      obtain ⟨t, _, rfl⟩ := ha
      obtain ⟨u, _, he⟩ := hb
      apply hij
      have h0 := congrFun he 0
      rw [Fin.cons_zero, Fin.cons_zero] at h0
      exact h0.symm

theorem sum_map_indicesCOrder (s : Fin n → ℕ) (f : (Fin n → ℕ) → ℚ) :
    ((indicesCOrder n s).map f).sum
      = ∑ p ∈ Fintype.piFinset (fun k => Finset.range (s k)), f p := by
  rw [← List.sum_toFinset f nodup_indicesCOrder]
  refine Finset.sum_congr ?_ fun _ _ => rfl
  ext p
  rw [List.mem_toFinset, mem_indicesCOrder, Fintype.mem_piFinset]
  simp

theorem sum_eq_validIdx (A : Arr n) : A.sum = ∑ p ∈ A.validIdx, A.data p :=
  sum_map_indicesCOrder A.shape A.data

/-! ### Summing over one axis at a time equals summing the whole fiber -/

theorem sum_piFinset_update (t : Fin n → Finset ℕ) (j : Fin n) (b : Finset ℕ) (c : ℕ)
    (htj : t j = {c}) (f : (Fin n → ℕ) → ℚ) :
    ∑ p ∈ Fintype.piFinset t, ∑ i ∈ b, f (Function.update p j i)
      = ∑ q ∈ Fintype.piFinset (Function.update t j b), f q := by
  rw [← Finset.sum_product']
  refine Finset.sum_nbij' (fun x => Function.update x.1 j x.2)
    (fun q => (Function.update q j c, q j)) ?_ ?_ ?_ ?_ ?_
  · rintro ⟨p, i⟩ hpi
    rw [Finset.mem_product] at hpi
    rw [Fintype.mem_piFinset]
    intro l
    rcases eq_or_ne l j with rfl | hl
    · simpa using hpi.2
    · simpa [Function.update_noteq hl] using Fintype.mem_piFinset.mp hpi.1 l
  · intro q hq
    rw [Fintype.mem_piFinset] at hq
    rw [Finset.mem_product]
    constructor
    · rw [Fintype.mem_piFinset]
      intro l
      rcases eq_or_ne l j with rfl | hl
      · simp [htj]
      · simpa [Function.update_noteq hl] using hq l
    · simpa using hq j
  · rintro ⟨p, i⟩ hpi
    rw [Finset.mem_product] at hpi
    have hpj : p j = c := by
      have h := Fintype.mem_piFinset.mp hpi.1 j
      rw [htj, Finset.mem_singleton] at h
      exact h
    refine Prod.ext ?_ ?_
    · dsimp only
      rw [Function.update_idem, ← hpj, Function.update_eq_self]
    · dsimp only
      exact Function.update_same j i p
  · intro q _
    dsimp only
    rw [Function.update_idem, Function.update_eq_self]
  · intro x _
    rfl

theorem foldl_sumAxisKeep_shape (L : List (Fin n)) (A : Arr n) (l : Fin n) :
    (L.foldl sumAxisKeep A).shape l = if l ∈ L then 1 else A.shape l := by
  induction L generalizing A with
  | nil => simp
  | cons j L ih =>
    rw [List.foldl_cons, ih]
    by_cases hl : l ∈ L
    · simp [hl]
    · rcases eq_or_ne l j with rfl | hlj
      · simp [sumAxisKeep, hl]
      · simp [sumAxisKeep, hl, hlj, Function.update_noteq hlj]

theorem foldl_sumAxisKeep_data (L : List (Fin n)) (A : Arr n) (idx : Fin n → ℕ)
    (hnd : L.Nodup) :
    (L.foldl sumAxisKeep A).data idx
      = ∑ p ∈ Fintype.piFinset
          (fun l => if l ∈ L then Finset.range (A.shape l) else {idx l}),
          A.data p := by
  induction L generalizing A with
  | nil => simp [Fintype.piFinset_singleton]
  | cons j L ih =>
    rw [List.nodup_cons] at hnd
    rw [List.foldl_cons, ih _ hnd.2]
    have hfam : (fun l => if l ∈ L then Finset.range ((sumAxisKeep A j).shape l) else {idx l})
        = fun l => if l ∈ L then Finset.range (A.shape l) else ({idx l} : Finset ℕ) := by
      funext l
      by_cases hl : l ∈ L
      · have hlj : l ≠ j := fun h => hnd.1 (h ▸ hl)
        simp [hl, sumAxisKeep, Function.update_noteq hlj]
      · simp [hl]
    rw [hfam]
    have hdata : ∀ p, (sumAxisKeep A j).data p
        = ∑ i ∈ Finset.range (A.shape j), A.data (Function.update p j i) := fun _ => rfl
    simp only [hdata]
    rw [sum_piFinset_update _ j _ (idx j) (by simp [hnd.1]) A.data]
    have h3 : (fun l => if l ∈ j :: L then Finset.range (A.shape l) else ({idx l} : Finset ℕ))
        = Function.update (fun l => if l ∈ L then Finset.range (A.shape l) else {idx l}) j
            (Finset.range (A.shape j)) := by
      funext l
      rcases eq_or_ne l j with rfl | hl
      · simp
      · simp [Function.update_noteq hl, hl, List.mem_cons]
    rw [h3]

/-! ### Characterization of `marginAt` -/

theorem marginAt_shape (A : Arr n) (k : Fin n) (l : Fin n) :
    (marginAt A k).shape l = if l = k then A.shape l else 1 := by
  rw [marginAt, foldl_sumAxisKeep_shape]
  rcases eq_or_ne l k with rfl | h
  · simp [List.mem_filter]
  · simp [List.mem_filter, h]

theorem marginAt_data (A : Arr n) (k : Fin n) (idx : Fin n → ℕ) :
    (marginAt A k).data idx
      = ∑ p ∈ Fintype.piFinset
          (fun l => if l = k then {idx k} else Finset.range (A.shape l)),
          A.data p := by
  rw [marginAt, foldl_sumAxisKeep_data _ _ _ ((List.nodup_finRange n).filter _)]
  have h3 : (fun l => if l = k then ({idx k} : Finset ℕ) else Finset.range (A.shape l))
      = fun l => if l ∈ (List.finRange n).filter (fun j => j ≠ k)
          then Finset.range (A.shape l) else {idx l} := by
    funext l
    rcases eq_or_ne l k with rfl | h
    · simp [List.mem_filter]
    · simp [List.mem_filter, h]
  rw [h3]

theorem marginAt_data_filter (A : Arr n) (k : Fin n) (idx : Fin n → ℕ)
    (hik : idx k < A.shape k) :
    (marginAt A k).data idx
      = ∑ p ∈ A.validIdx.filter (fun p => p k = idx k), A.data p := by
  rw [marginAt_data]
  have hfam : (fun l => if l = k then ({idx k} : Finset ℕ) else Finset.range (A.shape l))
      = Function.update (fun l => Finset.range (A.shape l)) k {idx k} := by
    funext l
    rcases eq_or_ne l k with rfl | h
    · simp
    · simp [h, Function.update_noteq h]
  rw [hfam,
    Fintype.piFinset_update_singleton_eq_filter_piFinset_eq
      (fun l => Finset.range (A.shape l)) k (Finset.mem_range.mpr hik)]
  rfl

theorem sum_fibers_eq_total (A : Arr n) (k : Fin n) (f : (Fin n → ℕ) → ℚ) :
    ∑ i ∈ Finset.range (A.shape k), ∑ p ∈ A.validIdx.filter (fun p => p k = i), f p
      = ∑ p ∈ A.validIdx, f p :=
  Finset.sum_fiberwise_of_maps_to
    (fun _ hp => Finset.mem_range.mpr (mem_validIdx.mp hp k)) f

theorem piFinset_fix_filter (A : Arr n) (k : Fin n) (i : ℕ) (hi : i < A.shape k) :
    Fintype.piFinset (fun l => if l = k then ({i} : Finset ℕ) else Finset.range (A.shape l))
      = A.validIdx.filter (fun p => p k = i) := by
  have hfam : (fun l => if l = k then ({i} : Finset ℕ) else Finset.range (A.shape l))
      = Function.update (fun l => Finset.range (A.shape l)) k {i} := by
    funext l
    rcases eq_or_ne l k with rfl | h
    · simp
    · simp [h, Function.update_noteq h]
  rw [hfam,
    Fintype.piFinset_update_singleton_eq_filter_piFinset_eq
      (fun l => Finset.range (A.shape l)) k (Finset.mem_range.mpr hi)]
  rfl

/-! ### The elementwise product of the marginals -/

theorem foldl_elemMul_data (L : List (Arr n)) (B : Arr n) (idx : Fin n → ℕ) :
    (L.foldl elemMul B).data idx = B.data idx * (L.map (fun m => m.data idx)).prod := by
  induction L generalizing B with
  | nil => simp
  | cons m L ih =>
    rw [List.foldl_cons, ih]
    show (B.data idx * m.data idx) * _ = _
    rw [List.map_cons, List.prod_cons, mul_assoc]

theorem margins_length (A : Arr n) : (margins A).length = n := by
  simp [margins]

theorem reduceMul_data (L : List (Arr n)) (hL : L ≠ []) (idx : Fin n → ℕ) :
    (reduceMul L).data idx = (L.map (fun m => m.data idx)).prod := by
  cases L with
  | nil => exact absurd rfl hL
  | cons m L =>
    rw [reduceMul, foldl_elemMul_data, List.map_cons, List.prod_cons]

theorem margins_ne_nil (hn : 1 ≤ n) (A : Arr n) : margins A ≠ [] := by
  intro h
  have h1 := margins_length A
  rw [h, List.length_nil] at h1
  omega

theorem reduceMul_margins_data (hn : 1 ≤ n) (A : Arr n) (idx : Fin n → ℕ) :
    (reduceMul (margins A)).data idx = ∏ k, (marginAt A k).data idx := by
  rw [reduceMul_data _ (margins_ne_nil hn A), margins, List.map_map,
    ← List.ofFn_eq_map, Fin.prod_ofFn]
  rfl

theorem foldl_elemMul_margin_shape (A : Arr n) (ks : List (Fin n)) :
    ∀ (B : Arr n), (∀ l, B.shape l = A.shape l ∨ (B.shape l = 1 ∧ l ∈ ks)) →
    ∀ l, (ks.foldl (fun B k => elemMul B (marginAt A k)) B).shape l = A.shape l := by
  induction ks with
  | nil =>
    intro B hB l
    rcases hB l with h | ⟨_, hmem⟩
    · exact h
    · exact absurd hmem (List.not_mem_nil l)
  | cons k ks ih =>
    intro B hB l
    rw [List.foldl_cons]
    apply ih
    intro l
    simp only [elemMul, marginAt_shape]
    rcases hB l with h | ⟨h1, hmem⟩
    · by_cases h1 : B.shape l = 1
      · rw [if_pos h1]
        rcases eq_or_ne l k with rfl | hlk
        · exact Or.inl (if_pos rfl)
        · rw [if_neg hlk]
          exact Or.inl (h1 ▸ h)
      · rw [if_neg h1]
        exact Or.inl h
    · rw [if_pos h1]
      rcases eq_or_ne l k with rfl | hlk
      · exact Or.inl (if_pos rfl)
      · rw [if_neg hlk]
        refine Or.inr ⟨rfl, ?_⟩
        rcases List.mem_cons.mp hmem with h | h
        · exact absurd h hlk
        · exact h

theorem reduceMul_margins_shape (hn : 1 ≤ n) (A : Arr n) (l : Fin n) :
    (reduceMul (margins A)).shape l = A.shape l := by
  obtain ⟨m, rfl⟩ : ∃ m, n = m + 1 := ⟨n - 1, by omega⟩
  rw [margins, List.finRange_succ_eq_map, List.map_cons, reduceMul, List.foldl_map]
  apply foldl_elemMul_margin_shape
  intro l
  rw [marginAt_shape]
  rcases eq_or_ne l 0 with rfl | hl
  · exact Or.inl (if_pos rfl)
  · rw [if_neg hl]
    obtain ⟨j, rfl⟩ := Fin.eq_succ_of_ne_zero hl
    exact Or.inr ⟨rfl, List.mem_map.mpr ⟨j, List.mem_finRange j, rfl⟩⟩

/-! ### `expected_freq` characterization -/

theorem expected_freq_shape (hn : 1 ≤ n) (A : Arr n) (l : Fin n) :
    (expected_freq A).shape l = A.shape l :=
  reduceMul_margins_shape hn A l

theorem expected_freq_data (A : Arr n) (idx : Fin n → ℕ) (hn : 1 ≤ n) :
    (expected_freq A).data idx
      = (∏ k, (marginAt A k).data idx) / A.sum ^ (n - 1) := by
  show (reduceMul (margins A)).data idx / A.sum ^ (n - 1) = _
  rw [reduceMul_margins_data hn]

theorem expected_freq_validIdx (hn : 1 ≤ n) (A : Arr n) :
    (expected_freq A).validIdx = A.validIdx :=
  congrArg Fintype.piFinset
    (funext fun k => congrArg Finset.range (expected_freq_shape hn A k))

/-! ### Positivity and the grand total -/

theorem shape_pos (A : Arr n) (hsz : A.size ≠ 0) (k : Fin n) : 0 < A.shape k := by
  rcases Nat.eq_zero_or_pos (A.shape k) with h | h
  · exact absurd (Finset.prod_eq_zero (Finset.mem_univ k) h) hsz
  · exact h

theorem validIdx_nonempty (A : Arr n) (hsz : A.size ≠ 0) : A.validIdx.Nonempty := by
  rw [Arr.validIdx, Fintype.piFinset_nonempty]
  intro k
  rw [Finset.nonempty_range_iff]
  have := shape_pos A hsz k
  omega

theorem total_pos (A : Arr n) (hsz : A.size ≠ 0)
    (hpos : ∀ idx ∈ A.validIdx, 0 < A.data idx) : 0 < A.sum := by
  rw [sum_eq_validIdx]
  exact Finset.sum_pos hpos (validIdx_nonempty A hsz)

theorem marginAt_pos (A : Arr n) (hsz : A.size ≠ 0)
    (hpos : ∀ idx ∈ A.validIdx, 0 < A.data idx) (k : Fin n) (idx : Fin n → ℕ)
    (hidx : idx k < A.shape k) : 0 < (marginAt A k).data idx := by
  rw [marginAt_data_filter A k idx hidx]
  apply Finset.sum_pos
  · intro p hp
    exact hpos p (Finset.mem_filter.mp hp).1
  · refine ⟨fun l => if l = k then idx k else 0, ?_⟩
    rw [Finset.mem_filter]
    refine ⟨mem_validIdx.mpr fun l => ?_, by simp⟩
    rcases eq_or_ne l k with rfl | h
    · simpa using hidx
    · simpa [h] using shape_pos A hsz l

theorem expected_freq_pos (hn : 1 ≤ n) (A : Arr n) (hsz : A.size ≠ 0)
    (hpos : ∀ idx ∈ A.validIdx, 0 < A.data idx) (idx : Fin n → ℕ)
    (hidx : idx ∈ A.validIdx) : 0 < (expected_freq A).data idx := by
  rw [expected_freq_data A idx hn]
  apply div_pos
  · exact Finset.prod_pos fun k _ => marginAt_pos A hsz hpos k idx (mem_validIdx.mp hidx k)
  · exact pow_pos (total_pos A hsz hpos) _

theorem marginAt_data_slice (A : Arr n) (k : Fin n) (idx : Fin n → ℕ) :
    (marginAt A k).data idx = marginSlice A k (idx k) :=
  marginAt_data A k idx

theorem sum_marginSlice (A : Arr n) (k : Fin n) :
    ∑ i ∈ Finset.range (A.shape k), marginSlice A k i = A.sum := by
  have h : ∀ i ∈ Finset.range (A.shape k), marginSlice A k i
      = ∑ p ∈ A.validIdx.filter (fun p => p k = i), A.data p := by
    intro i hi
    rw [marginSlice, piFinset_fix_filter A k i (Finset.mem_range.mp hi)]
  rw [Finset.sum_congr rfl h, sum_eq_validIdx]
  exact sum_fibers_eq_total A k A.data

theorem expected_freq_sum (hn : 1 ≤ n) (A : Arr n) (hT : A.sum ≠ 0) :
    (expected_freq A).sum = A.sum := by
  rw [sum_eq_validIdx, expected_freq_validIdx hn,
    Finset.sum_congr rfl fun idx _ => expected_freq_data A idx hn,
    ← Finset.sum_div]
  have hmarg : ∀ idx ∈ A.validIdx, (∏ k, (marginAt A k).data idx)
      = ∏ k, marginSlice A k (idx k) := fun idx _ =>
    Finset.prod_congr rfl fun k _ => marginAt_data_slice A k idx
  rw [Finset.sum_congr rfl hmarg, Arr.validIdx, ← Finset.prod_univ_sum,
    Finset.prod_congr rfl fun k _ => sum_marginSlice A k, Finset.prod_const,
    Finset.card_univ, Fintype.card_fin]
  have key : ∀ T : ℚ, T ≠ 0 → T ^ n / T ^ (n - 1) = T := by
    intro T hT0
    obtain ⟨m, hm⟩ : ∃ m, n = m + 1 := ⟨n - 1, by omega⟩
    rw [hm, Nat.add_sub_cancel, pow_succ, mul_div_cancel_left₀ _ (pow_ne_zero _ hT0)]
  exact key A.sum hT

/-! ### Branch lemmas for `chi2_contingency` -/

theorem chi2_of_negative {Λ : Type} (pd : PD Λ n) (A : Arr n) (c : Bool) (lam : Λ)
    (h : ∃ idx ∈ indicesCOrder n A.shape, A.data idx < 0) :
    chi2_contingency pd A c lam = .error .negativeValue := by
  unfold chi2_contingency
  rw [if_pos h]

theorem chi2_of_empty {Λ : Type} (pd : PD Λ n) (A : Arr n) (c : Bool) (lam : Λ)
    (h1 : ¬ ∃ idx ∈ indicesCOrder n A.shape, A.data idx < 0) (h2 : A.size = 0) :
    chi2_contingency pd A c lam = .error .emptyInput := by
  unfold chi2_contingency
  rw [if_neg h1, if_pos h2]

theorem chi2_ok_size_ne_zero {Λ : Type} {pd : PD Λ n} {A : Arr n} {c : Bool} {lam : Λ}
    {r : ℚ × ℚ × ℤ × Arr n} (h : chi2_contingency pd A c lam = .ok r) :
    A.size ≠ 0 := by
  intro hsz
  by_cases hneg : ∃ idx ∈ indicesCOrder n A.shape, A.data idx < 0
  · rw [chi2_of_negative pd A c lam hneg] at h
    cases h
  · rw [chi2_of_empty pd A c lam hneg hsz] at h
    cases h

theorem chi2_dof_zero_eval {Λ : Type} (pd : PD Λ n) (A : Arr n) (c : Bool) (lam : Λ)
    (h1 : ¬ ∃ idx ∈ indicesCOrder n A.shape, A.data idx < 0)
    (h2 : ¬ A.size = 0)
    (h3 : ∀ idx ∈ indicesCOrder n (expected_freq A).shape, (expected_freq A).data idx ≠ 0)
    (h4 : dofOfShape (expected_freq A).shape = 0) :
    chi2_contingency pd A c lam = .ok (0, 1, 0, expected_freq A) := by
  have hfind : (indicesCOrder n (expected_freq A).shape).find?
      (fun idx => decide ((expected_freq A).data idx = 0)) = none := by
    rw [List.find?_eq_none]
    intro x hx
    simpa using h3 x hx
  unfold chi2_contingency
  rw [if_neg h1, if_neg h2]
  simp only [hfind, h4]
  rfl

/-! ### Claim C3 -/

/-- C3: for a 2-D table of shape R x C with R, C >= 1, the degrees of
freedom computed by `chi2_contingency`, namely
`size - sum(shape) + ndim - 1`, equals `(R - 1) * (C - 1)` exactly. -/
theorem claim_C3_dof_two_dim (R C : ℕ) (hR : 1 ≤ R) (hC : 1 ≤ C) :
    dofOfShape ![R, C] = ((R : ℤ) - 1) * ((C : ℤ) - 1) := by
  rw [dofOfShape, Fin.prod_univ_two, Fin.sum_univ_two]
  simp only [Matrix.cons_val_zero, Matrix.cons_val_one, Matrix.head_cons]
  ring

/-- Witness for C3 at the concrete shape 3 x 4. -/
theorem claim_C3_witness :
    (1 ≤ 3 ∧ 1 ≤ 4) ∧ dofOfShape ![3, 4] = (((3 : ℕ) : ℤ) - 1) * (((4 : ℕ) : ℤ) - 1) :=
  ⟨⟨by decide, by decide⟩, claim_C3_dof_two_dim 3 4 (by decide) (by decide)⟩

/-! ### Claim C5 -/

/-- C5: for every table containing at least one negative entry,
`chi2_contingency` fails with the NegativeValue error; this is the first
check in the function, before the expected table or any statistic is
computed, and no partial result is returned. -/
theorem claim_C5_negative_error {Λ : Type} (pd : PD Λ n) (A : Arr n)
    (c : Bool) (lam : Λ) (h : ∃ idx ∈ indicesCOrder n A.shape, A.data idx < 0) :
    chi2_contingency pd A c lam = .error .negativeValue := by
  unfold chi2_contingency
  rw [if_pos h]

/-- Witness for C5 at the table [[-1, 2], [3, 4]]. -/
theorem claim_C5_witness :
    (∃ idx ∈ indicesCOrder 2 arrNegEntry.shape, arrNegEntry.data idx < 0) ∧
      chi2_contingency (pdZero 2) arrNegEntry true () = .error .negativeValue := by
  have h : ∃ idx ∈ indicesCOrder 2 arrNegEntry.shape, arrNegEntry.data idx < 0 := by
    norm_num [indicesCOrder, arrNegEntry, data2, fin_cons_one, List.range_succ]
  exact ⟨h, claim_C5_negative_error (pdZero 2) arrNegEntry true () h⟩

/-! ### Claim C10 -/

/-- C10: `association` validates the dtype before the rank: a table whose
element type is not integral fails with WrongDtype for every rank (1-D,
2-D, 3-D, ...), every method and every flag; the rank check is only ever
reached by integer-typed tables. -/
theorem claim_C10_dtype_before_rank {Λ : Type} (pd : PD Λ n) (arr : Arr n)
    (method : Method) (c : Bool) (lam : Λ) :
    association pd false arr method c lam = .error .wrongDtype := rfl

/-- Witness: a float-typed 1-D table is rejected as WrongDtype, not
WrongRank. -/
theorem claim_C10_witness :
    association (pdZero 1) false arrOnePos .cramer false () = .error .wrongDtype :=
  claim_C10_dtype_before_rank (pdZero 1) arrOnePos .cramer false ()

/-! ### Claim C2 -/

theorem yates_cell_bounds (o e : ℚ) :
    |(o + min (1 / 2 : ℚ) |e - o| * npSign (e - o)) - o| ≤ min (1 / 2 : ℚ) |e - o|
      ∧ min o e ≤ o + min (1 / 2 : ℚ) |e - o| * npSign (e - o)
      ∧ o + min (1 / 2 : ℚ) |e - o| * npSign (e - o) ≤ max o e := by
  rcases lt_trichotomy (e - o) 0 with hlt | heq | hgt
  · rw [npSign, if_neg (by linarith), if_pos hlt, abs_of_neg hlt]
    have h1 : min (1 / 2 : ℚ) (-(e - o)) ≤ -(e - o) := min_le_right _ _
    have h2 : (0 : ℚ) ≤ min (1 / 2 : ℚ) (-(e - o)) := le_min (by norm_num) (by linarith)
    refine ⟨?_, ?_, ?_⟩
    · rw [show o + min (1 / 2 : ℚ) (-(e - o)) * (-1) - o
          = -(min (1 / 2 : ℚ) (-(e - o))) by ring, abs_neg, abs_of_nonneg h2]
    · rw [min_def, if_neg (by linarith)]
      linarith
    · rw [max_def, if_neg (by linarith)]
      linarith
  · have he : e = o := by linarith
    subst he
    simp [npSign]
  · rw [npSign, if_pos hgt, abs_of_pos hgt]
    have h1 : min (1 / 2 : ℚ) (e - o) ≤ e - o := min_le_right _ _
    have h2 : (0 : ℚ) ≤ min (1 / 2 : ℚ) (e - o) := le_min (by norm_num) (by linarith)
    refine ⟨?_, ?_, ?_⟩
    · rw [show o + min (1 / 2 : ℚ) (e - o) * 1 - o
          = min (1 / 2 : ℚ) (e - o) by ring, abs_of_nonneg h2]
    · rw [min_def, if_pos (by linarith)]
      linarith
    · rw [max_def, if_pos (by linarith)]
      linarith

/-- C2: when dof == 1 and the correction flag is set, the Yates adjustment
applied by `chi2_contingency` to each observed cell has absolute value at
most `min(0.5, |expected - observed|)` and moves the cell toward (never
past) its expected value; for any other dof, or with the flag disabled,
the observed table is left unmodified. -/
theorem claim_C2_yates_bounds (observed expected : Arr n) (dof : ℤ)
    (c : Bool) (idx : Fin n → ℕ) :
    (|(adjustObserved observed expected dof c).data idx - observed.data idx|
        ≤ min (1 / 2 : ℚ) |expected.data idx - observed.data idx|)
    ∧ min (observed.data idx) (expected.data idx)
        ≤ (adjustObserved observed expected dof c).data idx
    ∧ (adjustObserved observed expected dof c).data idx
        ≤ max (observed.data idx) (expected.data idx)
    ∧ (¬ (dof = 1 ∧ c = true) → adjustObserved observed expected dof c = observed) := by
  by_cases h : dof = 1 ∧ c = true
  · rw [adjustObserved, if_pos h]
    have hb := yates_cell_bounds (observed.data idx) (expected.data idx)
    exact ⟨hb.1, hb.2.1, hb.2.2, fun hc => absurd h hc⟩
  · rw [adjustObserved, if_neg h]
    refine ⟨?_, min_le_left _ _, le_max_left _ _, fun _ => rfl⟩
    rw [sub_self, abs_zero]
    exact le_min (by norm_num) (abs_nonneg _)

/-- Witness for C2 at concrete tables, dof = 1 and the flag enabled. -/
theorem claim_C2_witness :
    (|(adjustObserved arrOneZero arrOnePos 1 true).data (fun _ => 0)
        - arrOneZero.data (fun _ => 0)|
        ≤ min (1 / 2 : ℚ) |arrOnePos.data (fun _ => 0) - arrOneZero.data (fun _ => 0)|)
    ∧ min (arrOneZero.data (fun _ => 0)) (arrOnePos.data (fun _ => 0))
        ≤ (adjustObserved arrOneZero arrOnePos 1 true).data (fun _ => 0)
    ∧ (adjustObserved arrOneZero arrOnePos 1 true).data (fun _ => 0)
        ≤ max (arrOneZero.data (fun _ => 0)) (arrOnePos.data (fun _ => 0))
    ∧ (¬ ((1 : ℤ) = 1 ∧ true = true) → adjustObserved arrOneZero arrOnePos 1 true = arrOneZero) :=
  claim_C2_yates_bounds arrOneZero arrOnePos 1 true (fun _ => 0)

/-! ### Claim C1 -/

/-- C1 counterexample: the 1-D table `[0]` does not produce the 4-tuple the
claim promises for every 1-D table; `chi2_contingency` raises the
degenerate-expected-cell error instead (for 1-D tables expected ==
observed, so a zero entry is a zero expected cell). -/
theorem claim_C1_counterexample :
    chi2_contingency (pdZero 1) arrOneZero true ()
      = .error (.degenerateExpectedCell [0]) := by
  have h1 : ¬ ∃ idx ∈ indicesCOrder 1 arrOneZero.shape, arrOneZero.data idx < 0 := by
    norm_num [indicesCOrder, arrOneZero, data1, List.range_succ]
  have h2 : ¬ arrOneZero.size = 0 := by decide
  have hlist : indicesCOrder 1 arrOneZero.shape = [Fin.cons 0 (fun i => i.elim0)] := by
    norm_num [indicesCOrder, arrOneZero, List.range_succ]
  have hdat : (expected_freq arrOneZero).data (Fin.cons 0 (fun i => i.elim0)) = 0 := by
    show arrOneZero.data _ / arrOneZero.sum ^ (1 - 1) = 0
    norm_num [arrOneZero, data1]
  have hfind : (indicesCOrder 1 (expected_freq arrOneZero).shape).find?
      (fun idx => decide ((expected_freq arrOneZero).data idx = 0))
      = some (Fin.cons 0 (fun i => i.elim0)) := by
    have hsh : (expected_freq arrOneZero).shape = arrOneZero.shape := rfl
    rw [hsh, hlist]
    simp [hdat]
  unfold chi2_contingency
  rw [if_neg h1, if_neg h2]
  simp only [hfind]
  norm_num [List.ofFn_succ, List.ofFn_zero]

/-- C1 (amended): for every 1-D table of positive length all of whose
entries are strictly positive, `chi2_contingency` returns statistic 0,
p-value 1, dof 0 and expected == observed, for an arbitrary external
divergence function `pd` (the result does not mention `pd`: the external
function is never consulted). -/
theorem claim_C1_one_dim {Λ : Type} (pd : PD Λ 1) (A : Arr 1) (c : Bool) (lam : Λ)
    (hlen : 0 < A.shape 0)
    (hpos : ∀ idx ∈ indicesCOrder 1 A.shape, 0 < A.data idx) :
    chi2_contingency pd A c lam = .ok (0, 1, 0, expected_freq A)
      ∧ (expected_freq A).shape = A.shape
      ∧ (∀ idx, (expected_freq A).data idx = A.data idx) := by
  have hshape : (expected_freq A).shape = A.shape := rfl
  have hdata : ∀ idx, (expected_freq A).data idx = A.data idx := by
    intro idx
    show A.data idx / A.sum ^ (1 - 1) = A.data idx
    norm_num
  refine ⟨?_, hshape, hdata⟩
  have hsz : ¬ A.size = 0 := by
    have h : A.size = A.shape 0 := Fin.prod_univ_one _
    omega
  have h1 : ¬ ∃ idx ∈ indicesCOrder 1 A.shape, A.data idx < 0 := by
    rintro ⟨idx, hm, hlt⟩
    exact absurd (hpos idx hm) (by linarith)
  have h3 : ∀ idx ∈ indicesCOrder 1 (expected_freq A).shape,
      (expected_freq A).data idx ≠ 0 := by
    intro idx hm
    rw [hshape] at hm
    rw [hdata idx]
    exact ne_of_gt (hpos idx hm)
  have h4 : dofOfShape (expected_freq A).shape = 0 := by
    rw [hshape, dofOfShape, Fin.prod_univ_one, Fin.sum_univ_one]
    ring
  exact chi2_dof_zero_eval pd A c lam h1 hsz h3 h4

/-- Witness for the amended C1 at the table `[5, 7, 2]`. -/
theorem claim_C1_witness :
    (0 < arrOnePos.shape 0
        ∧ ∀ idx ∈ indicesCOrder 1 arrOnePos.shape, 0 < arrOnePos.data idx)
      ∧ chi2_contingency (pdZero 1) arrOnePos true ()
          = .ok (0, 1, 0, expected_freq arrOnePos)
      ∧ (expected_freq arrOnePos).shape = arrOnePos.shape
      ∧ (∀ idx, (expected_freq arrOnePos).data idx = arrOnePos.data idx) := by
  have hpos : ∀ idx ∈ indicesCOrder 1 arrOnePos.shape, 0 < arrOnePos.data idx := by
    norm_num [indicesCOrder, arrOnePos, data1, List.range_succ]
  exact ⟨⟨by decide, hpos⟩,
    claim_C1_one_dim (pdZero 1) arrOnePos true () (by decide) hpos⟩

/-! ### Claim C4 -/

/-- C4: for every nonnegative, non-empty table (of nonzero total, the
regime where the float computation of the expected table is exact) whose
expected-frequency table contains a cell that is exactly zero,
`chi2_contingency` fails with the degenerate-expected-cell error and the
error names the coordinates of an offending cell; no statistic is
computed. -/
theorem claim_C4_degenerate_cell {Λ : Type} (pd : PD Λ n) (A : Arr n)
    (c : Bool) (lam : Λ) (hn : 1 ≤ n)
    (hnn : ∀ idx ∈ indicesCOrder n A.shape, 0 ≤ A.data idx)
    (hsz : A.size ≠ 0) (hT : A.sum ≠ 0)
    (hz : ∃ idx ∈ indicesCOrder n A.shape, (expected_freq A).data idx = 0) :
    ∃ pos : Fin n → ℕ, pos ∈ indicesCOrder n A.shape
      ∧ (expected_freq A).data pos = 0
      ∧ chi2_contingency pd A c lam
          = .error (.degenerateExpectedCell (List.ofFn pos)) := by
  have hshape : (expected_freq A).shape = A.shape :=
    funext (expected_freq_shape hn A)
  have h1 : ¬ ∃ idx ∈ indicesCOrder n A.shape, A.data idx < 0 := by
    rintro ⟨idx, hm, hlt⟩
    exact absurd hlt (not_lt.mpr (hnn idx hm))
  have hex : ∃ x ∈ indicesCOrder n (expected_freq A).shape,
      decide ((expected_freq A).data x = 0) = true := by
    obtain ⟨idx, hm, h0⟩ := hz
    refine ⟨idx, ?_, by simpa using h0⟩
    rw [hshape]
    exact hm
  obtain ⟨pos, hfind⟩ := Option.isSome_iff_exists.mp (List.find?_isSome.mpr hex)
  refine ⟨pos, ?_, ?_, ?_⟩
  · have hm := List.mem_of_find?_eq_some hfind
    rwa [hshape] at hm
  · simpa using List.find?_some hfind
  · unfold chi2_contingency
    rw [if_neg h1, if_neg hsz]
    simp only [hfind]

/-- Witness for C4 at the 1-D table `[1, 0]`, whose expected table equals
the observed table and so contains an exact zero, while the total is 1. -/
theorem claim_C4_witness :
    ((1 : ℕ) ≤ 1
        ∧ (∀ idx ∈ indicesCOrder 1 arrTwoZero.shape, 0 ≤ arrTwoZero.data idx)
        ∧ arrTwoZero.size ≠ 0 ∧ arrTwoZero.sum ≠ 0
        ∧ ∃ idx ∈ indicesCOrder 1 arrTwoZero.shape,
            (expected_freq arrTwoZero).data idx = 0)
      ∧ ∃ pos : Fin 1 → ℕ, pos ∈ indicesCOrder 1 arrTwoZero.shape
          ∧ (expected_freq arrTwoZero).data pos = 0
          ∧ chi2_contingency (pdZero 1) arrTwoZero true ()
              = .error (.degenerateExpectedCell (List.ofFn pos)) := by
  have hnn : ∀ idx ∈ indicesCOrder 1 arrTwoZero.shape, 0 ≤ arrTwoZero.data idx := by
    norm_num [indicesCOrder, arrTwoZero, data1, List.range_succ]
  have hT : arrTwoZero.sum ≠ 0 := by
    norm_num [Arr.sum, indicesCOrder, arrTwoZero, data1, List.range_succ]
  have hz : ∃ idx ∈ indicesCOrder 1 arrTwoZero.shape,
      (expected_freq arrTwoZero).data idx = 0 := by
    refine ⟨Fin.cons 1 (fun i => i.elim0), ?_, ?_⟩
    · rw [mem_indicesCOrder]
      intro k
      fin_cases k
      norm_num [arrTwoZero]
    · show arrTwoZero.data _ / arrTwoZero.sum ^ (1 - 1) = 0
      norm_num [arrTwoZero, data1]
  exact ⟨⟨le_refl 1, hnn, by decide, hT, hz⟩,
    claim_C4_degenerate_cell (pdZero 1) arrTwoZero true () (le_refl 1)
      hnn (by decide) hT hz⟩

/-! ### Claim C6 -/

/-- C6: for every n-dimensional table (n >= 1) with nonzero total count,
the expected-frequency table has exactly the same total as the observed
table, in exact rational arithmetic. -/
theorem claim_C6_total_preserved (hn : 1 ≤ n) (A : Arr n) (hT : A.sum ≠ 0) :
    (expected_freq A).sum = A.sum :=
  expected_freq_sum hn A hT

/-- Witness for C6 at the 2x2 table [[1, 2], [3, 4]] (total 10). -/
theorem claim_C6_witness :
    ((1 : ℕ) ≤ 2 ∧ arrSquare.sum ≠ 0)
      ∧ (expected_freq arrSquare).sum = arrSquare.sum := by
  have hT : arrSquare.sum ≠ 0 := by
    norm_num [Arr.sum, indicesCOrder, arrSquare, data2, fin_cons_one, List.range_succ]
  exact ⟨⟨by norm_num, hT⟩, claim_C6_total_preserved (by norm_num) arrSquare hT⟩

/-! ### Claim C7 -/

theorem margins_getD (A : Arr n) (k : Fin n) :
    (margins A).getD k.val default = marginAt A k := by
  have hlen : k.val < (margins A).length := by
    rw [margins_length]
    exact k.isLt
  rw [List.getD_eq_getElem (margins A) default hlen]
  simp [margins, List.getElem_map, List.getElem_finRange]

/-- C7: `margins` returns one array per axis and never raises; the k-th
element keeps the rank of the input with every axis except k collapsed to
length 1 (axis k keeps its length), its value at any valid position is the
table summed over all axes other than k (the sum of the fiber through that
position), and summing it along axis k recovers the grand total. -/
theorem claim_C7_margins_spec (A : Arr n) (k : Fin n) :
    (margins A).length = n
    ∧ (∀ l, ((margins A).getD k.val default).shape l = if l = k then A.shape l else 1)
    ∧ (∀ idx ∈ ((margins A).getD k.val default).validIdx,
        ((margins A).getD k.val default).data idx
          = ∑ p ∈ A.validIdx.filter (fun p => p k = idx k), A.data p)
    ∧ (∑ i ∈ Finset.range (A.shape k),
        ((margins A).getD k.val default).data (Function.update (fun _ => 0) k i)
        = A.sum) := by
  rw [margins_getD]
  refine ⟨margins_length A, fun l => marginAt_shape A k l, ?_, ?_⟩
  · intro idx hm
    apply marginAt_data_filter
    have hk := mem_validIdx.mp hm k
    rwa [marginAt_shape, if_pos rfl] at hk
  · have hstep : ∀ i ∈ Finset.range (A.shape k),
        (marginAt A k).data (Function.update (fun _ => 0) k i) = marginSlice A k i := by
      intro i _
      rw [marginAt_data_slice, Function.update_same]
    rw [Finset.sum_congr rfl hstep, sum_marginSlice]

/-! ### Evaluation lemmas for `association` (rank-2, integer dtype) -/

theorem shapeAt_zero (A : Arr 2) : A.shapeAt 0 = A.shape 0 := rfl

theorem shapeAt_one (A : Arr 2) : A.shapeAt 1 = A.shape 1 := rfl

theorem association_error_eval {Λ : Type} (pd : PD Λ 2) (arr : Arr 2)
    (method : Method) (c : Bool) (lam : Λ) (e : Err)
    (hc : chi2_contingency pd arr c lam = .error e) :
    association pd true arr method c lam = .error e := by
  unfold association
  rw [hc]
  rfl

theorem association_cramer_eval {Λ : Type} (pd : PD Λ 2) (arr : Arr 2)
    (c : Bool) (lam : Λ) (r : ℚ × ℚ × ℤ × Arr 2)
    (hc : chi2_contingency pd arr c lam = .ok r) :
    association pd true arr .cramer c lam
      = pySqrt (pyDiv (pyDiv (.fin (r.1 : ℝ)) (.fin (arr.sum : ℝ)))
          (.fin ((min ((arr.shapeAt 1 : ℤ) - 1) ((arr.shapeAt 0 : ℤ) - 1) : ℤ) : ℝ))) := by
  unfold association
  rw [hc]
  rfl

theorem association_tschuprow_eval {Λ : Type} (pd : PD Λ 2) (arr : Arr 2)
    (c : Bool) (lam : Λ) (r : ℚ × ℚ × ℤ × Arr 2)
    (hc : chi2_contingency pd arr c lam = .ok r) :
    association pd true arr .tschuprow c lam
      = match sqrtZ (((arr.shapeAt 0 : ℤ) - 1) * ((arr.shapeAt 1 : ℤ) - 1)) with
        | .error e => .error e
        | .ok s =>
            pySqrt (pyDiv (pyDiv (.fin (r.1 : ℝ)) (.fin (arr.sum : ℝ))) (.fin s)) := by
  unfold association
  rw [hc]
  rfl

theorem pyDiv_zero_zero : pyDiv (.fin 0) (.fin 0) = .nan := by
  simp [pyDiv]

theorem pyDiv_fin_fin (a b : ℝ) (hb : b ≠ 0) :
    pyDiv (.fin a) (.fin b) = .fin (a / b) := by
  simp [pyDiv, hb]

theorem pySqrt_nan : pySqrt .nan = .ok .nan := rfl

/-! ### Claim C8 -/

/-- C8: on a square 2-D integer table, `association` returns the same value
for method "cramer" as for method "tschuprow" (same correction flag and
divergence family); both compute phi2 divided by n_rows - 1. -/
theorem claim_C8_cramer_eq_tschuprow {Λ : Type} (pd : PD Λ 2) (arr : Arr 2)
    (c : Bool) (lam : Λ) (hsq : arr.shape 0 = arr.shape 1) :
    association pd true arr .cramer c lam
      = association pd true arr .tschuprow c lam := by
  rcases hres : chi2_contingency pd arr c lam with e | r
  · rw [association_error_eval pd arr .cramer c lam e hres,
      association_error_eval pd arr .tschuprow c lam e hres]
  · rw [association_cramer_eval pd arr c lam r hres,
      association_tschuprow_eval pd arr c lam r hres]
    have hsz := chi2_ok_size_ne_zero hres
    have h0 : 1 ≤ arr.shape 0 := shape_pos arr hsz 0
    rw [shapeAt_zero, shapeAt_one, ← hsq, min_self]
    unfold sqrtZ
    rw [if_neg (not_lt.mpr (mul_self_nonneg _))]
    have hx : (0 : ℝ) ≤ (((arr.shape 0 : ℤ) - 1 : ℤ) : ℝ) := by
      have h1 : (1 : ℝ) ≤ ((arr.shape 0 : ℕ) : ℝ) := by exact_mod_cast h0
      push_cast
      linarith
    have hs : Real.sqrt (((((arr.shape 0 : ℤ) - 1) * ((arr.shape 0 : ℤ) - 1) : ℤ)) : ℝ)
        = (((arr.shape 0 : ℤ) - 1 : ℤ) : ℝ) := by
      push_cast
      push_cast at hx
      exact Real.sqrt_mul_self hx
    rw [hs]

/-- Witness for C8 at the square table [[1, 2], [3, 4]]. -/
theorem claim_C8_witness :
    arrSquare.shape 0 = arrSquare.shape 1
      ∧ association (pdZero 2) true arrSquare .cramer false ()
          = association (pdZero 2) true arrSquare .tschuprow false () :=
  ⟨rfl, claim_C8_cramer_eq_tschuprow (pdZero 2) arrSquare false () rfl⟩

/-! ### Claim C9 -/

theorem assoc_degenerate_nan {Λ : Type} (pd : PD Λ 2) (arr : Arr 2)
    (c : Bool) (lam : Λ)
    (hrow : arr.shape 0 = 1 ∨ arr.shape 1 = 1)
    (hsz : arr.size ≠ 0)
    (hpos : ∀ idx ∈ indicesCOrder 2 arr.shape, 0 < arr.data idx) :
    association pd true arr .cramer c lam = .ok .nan
      ∧ association pd true arr .tschuprow c lam = .ok .nan := by
  have hn2 : (1 : ℕ) ≤ 2 := by norm_num
  have hposv : ∀ idx ∈ arr.validIdx, 0 < arr.data idx := fun idx hm =>
    hpos idx (mem_indicesCOrder.mpr (mem_validIdx.mp hm))
  have h1 : ¬ ∃ idx ∈ indicesCOrder 2 arr.shape, arr.data idx < 0 := by
    rintro ⟨idx, hm, hlt⟩
    exact absurd (hpos idx hm) (by linarith)
  have hshape : (expected_freq arr).shape = arr.shape :=
    funext (expected_freq_shape hn2 arr)
  have h3 : ∀ idx ∈ indicesCOrder 2 (expected_freq arr).shape,
      (expected_freq arr).data idx ≠ 0 := by
    intro idx hm
    rw [hshape] at hm
    have hv : idx ∈ arr.validIdx := mem_validIdx.mpr (mem_indicesCOrder.mp hm)
    exact ne_of_gt (expected_freq_pos hn2 arr hsz hposv idx hv)
  have h4 : dofOfShape (expected_freq arr).shape = 0 := by
    rw [hshape, dofOfShape, Fin.prod_univ_two, Fin.sum_univ_two]
    rcases hrow with h | h
    · have hh : (arr.shape 0 : ℤ) = 1 := by exact_mod_cast h
      rw [hh]
      ring
    · have hh : (arr.shape 1 : ℤ) = 1 := by exact_mod_cast h
      rw [hh]
      ring
  have hchi : chi2_contingency pd arr c lam = .ok (0, 1, 0, expected_freq arr) :=
    chi2_dof_zero_eval pd arr c lam h1 hsz h3 h4
  have hTpos : 0 < arr.sum := total_pos arr hsz hposv
  have hTne : ((arr.sum : ℚ) : ℝ) ≠ 0 := by
    have : (0 : ℝ) < ((arr.sum : ℚ) : ℝ) := by exact_mod_cast hTpos
    linarith
  have hphi : pyDiv (.fin (((0 : ℚ) : ℚ) : ℝ)) (.fin (arr.sum : ℝ)) = .fin 0 := by
    rw [pyDiv_fin_fin _ _ hTne]
    norm_num
  have hmin : min ((arr.shape 1 : ℤ) - 1) ((arr.shape 0 : ℤ) - 1) = 0 := by
    have ha := shape_pos arr hsz 0
    have hb := shape_pos arr hsz 1
    rcases hrow with h | h <;> omega
  have hprod : ((arr.shape 0 : ℤ) - 1) * ((arr.shape 1 : ℤ) - 1) = 0 := by
    rcases hrow with h | h
    · have hh : (arr.shape 0 : ℤ) - 1 = 0 := by omega
      rw [hh, zero_mul]
    · have hh : (arr.shape 1 : ℤ) - 1 = 0 := by omega
      rw [hh, mul_zero]
  constructor
  · rw [association_cramer_eval pd arr c lam _ hchi, shapeAt_zero, shapeAt_one]
    have hgoal : pyDiv (.fin (((0, 1, 0, expected_freq arr).1 : ℚ) : ℝ))
        (.fin (arr.sum : ℝ)) = .fin 0 := hphi
    rw [hgoal, hmin]
    norm_num [pyDiv_zero_zero, pySqrt_nan]
  · rw [association_tschuprow_eval pd arr c lam _ hchi, shapeAt_zero, shapeAt_one,
      hprod]
    unfold sqrtZ
    rw [if_neg (by norm_num)]
    have hgoal : pyDiv (.fin (((0, 1, 0, expected_freq arr).1 : ℚ) : ℝ))
        (.fin (arr.sum : ℝ)) = .fin 0 := hphi
    rw [Int.cast_zero, Real.sqrt_zero]
    show pySqrt (pyDiv (pyDiv (.fin (((0 : ℚ) : ℚ) : ℝ)) (.fin (arr.sum : ℝ))) (.fin 0))
      = .ok .nan
    rw [hphi, pyDiv_zero_zero, pySqrt_nan]

/-- C9 counterexample: on the 1 x 2 table [[5, 5]] (all entries positive,
so every earlier check passes), `association` with method "cramer" runs to
completion and RETURNS the float NaN: the divisor min(n_cols-1, n_rows-1)
is zero, and numpy float division by zero yields NaN with a warning rather
than raising a ZeroDivisionError, so no unhandled exception occurs. -/
theorem claim_C9_counterexample :
    association (pdZero 2) true arrOneRow .cramer false () = .ok .nan := by
  have h := assoc_degenerate_nan (pdZero 2) arrOneRow false () (Or.inl rfl)
    (by decide)
    (by norm_num [indicesCOrder, arrOneRow, data2, fin_cons_one, List.range_succ])
  exact h.1

/-- C9 (amended): for every 2-D table with exactly one row or exactly one
column, positive entries and at least one element, `association` with
method "cramer" or "tschuprow" divides by a zero divisor; following numpy
semantics the division produces NaN (not a ZeroDivisionError), so the call
returns NaN, a value that is neither a valid association score nor one of
the spec's error kinds. -/
theorem claim_C9_degenerate_nan {Λ : Type} (pd : PD Λ 2) (arr : Arr 2)
    (c : Bool) (lam : Λ)
    (hrow : arr.shape 0 = 1 ∨ arr.shape 1 = 1)
    (hsz : arr.size ≠ 0)
    (hpos : ∀ idx ∈ indicesCOrder 2 arr.shape, 0 < arr.data idx) :
    association pd true arr .cramer c lam = .ok .nan
      ∧ association pd true arr .tschuprow c lam = .ok .nan :=
  assoc_degenerate_nan pd arr c lam hrow hsz hpos

/-- Witness for the amended C9 at the 2 x 1 table [[3], [4]]. -/
theorem claim_C9_witness :
    ((arrOneCol.shape 0 = 1 ∨ arrOneCol.shape 1 = 1) ∧ arrOneCol.size ≠ 0
        ∧ ∀ idx ∈ indicesCOrder 2 arrOneCol.shape, 0 < arrOneCol.data idx)
      ∧ association (pdZero 2) true arrOneCol .cramer false () = .ok .nan
      ∧ association (pdZero 2) true arrOneCol .tschuprow false () = .ok .nan := by
  have hpos : ∀ idx ∈ indicesCOrder 2 arrOneCol.shape, 0 < arrOneCol.data idx := by
    norm_num [indicesCOrder, arrOneCol, data2, fin_cons_one, List.range_succ]
  have h := claim_C9_degenerate_nan (pdZero 2) arrOneCol false () (Or.inr rfl)
    (by decide) hpos
  exact ⟨⟨Or.inr rfl, by decide, hpos⟩, h.1, h.2⟩

end Contingency
